import Mathlib

/-!
Verification development for the testcall repository (Rust test-support toolkit).

The embedding models:
* `PathNormalize::normalize` and `TestDir::sub_path` from src/testdir.rs
  (path components as lists, the disk's `canonicalize` as an oracle function);
* the `Fixtures`/`DirAssertions` operations (`create_file`, `assert_exists`,
  `delete`) over an explicit filesystem value;
* the environment handling of `TestCall::call_args_envs`/`spawn_args_envs`
  from src/testcall.rs over the state of a process `Command`;
* the output assertions of src/output.rs and src/lib.rs
  (`assert_exitcode`, `assert_stdout_utf8`, `assert_stdout_bytes`, ...);
* `captures_utf8` and `Captured` indexing from src/regex.rs, with the external
  regex crate abstracted as an engine interface, and a concrete engine instance
  for the pattern used by the repository's own tests.
-/

namespace Testcall

/-- POSIX path components as produced by Rust's std path component iterator.
The Windows-only prefix component is omitted: the development models POSIX
paths, which is the platform the repository's own tests are gated on. -/
inductive Component where
  | rootDir
  | curDir
  | parentDir
  | normal (s : String)
deriving DecidableEq

abbrev RPath := List Component

open Component

/-- Rust `Path::parent` on component lists: `none` exactly for the empty path and
the bare root, otherwise the path without its last component. -/
def pathParent (p : RPath) : Option RPath :=
  if p = [] ∨ p = [rootDir] then none else some p.dropLast

/-- The `normalized.parent()` test in `PathNormalize::normalize`: whether the
accumulated path has a poppable component. -/
def hasParent (p : RPath) : Bool :=
  (pathParent p).isSome

/-- The lexical part of one `PathNormalize::normalize` loop iteration: dot
components are skipped, names are pushed, a root component restarts the buffer
at the root (Rust `PathBuf::push` replaces the buffer when pushed an absolute
path), and a dot-dot pops the last component exactly when `parent()` is `Some`. -/
def lexPush (acc : RPath) (c : Component) : RPath :=
  match c with
  | rootDir => [rootDir]
  | curDir => acc
  | parentDir => if hasParent acc then acc.dropLast else acc
  | normal s => acc ++ [normal s]

/-- One full iteration of `PathNormalize::normalize`: after the lexical step the
code runs `normalized.canonicalize().unwrap_or(normalized)`.  The oracle `canon`
models `Path::canonicalize`: `some r` when the path exists on disk and resolves
to `r`, `none` when canonicalization fails (e.g. the path does not exist yet). -/
def normStep (canon : RPath → Option RPath) (acc : RPath) (c : Component) : RPath :=
  match canon (lexPush acc c) with
  | some r => r
  | none => lexPush acc c

/-- The `PathNormalize::normalize` from src/testdir.rs: fold the loop body over the
input's components starting from an empty buffer. -/
def normalize (canon : RPath → Option RPath) (p : RPath) : RPath :=
  p.foldl (normStep canon) []

/-- Disk oracle of a filesystem on which no path canonicalizes (nothing the
normalization touches exists yet). -/
def noDisk : RPath → Option RPath := fun _ => none

/-- A disk oracle that never rewrites a path: every existing path canonicalizes
to itself.  This models any disk state free of symlinks. -/
def OracleId (canon : RPath → Option RPath) : Prop :=
  ∀ q r, canon q = some r → r = q

/-- Error taxonomy of the fixture layer (spec section 7): `escape` for a
confinement violation, `alreadyExists`/`notFound` for existence preconditions,
`ioError` for filesystem failures, `fatal` for the deliberate hard failures
(the unimplemented dangerous operations). -/
inductive TdError where
  | escape
  | alreadyExists
  | notFound
  | ioError
  | fatal
deriving DecidableEq

/-- Component-wise prefix test, mirroring Rust `Path::starts_with` (which is
not strict: every path starts with itself). -/
def isPrefixL : RPath → RPath → Bool
  | [], _ => true
  | _ :: _, [] => false
  | a :: restA, b :: restB => if a = b then isPrefixL restA restB else false

/-- A strict component-wise prefix: a prefix that is not the whole path. -/
def isStrictPrefixL (base p : RPath) : Bool :=
  isPrefixL base p && decide (base ≠ p)

/-- The `TestDir::sub_path` from src/testdir.rs: push the subcomponents onto the
testdir, normalize, and fail with `Escape` (the `escaped from testdir` panic)
when the result does not start with the testdir. -/
def sub_pathE (canon : RPath → Option RPath) (testdir subc : RPath) : Except TdError RPath :=
  let path := normalize canon (testdir ++ subc)
  if isPrefixL testdir path then .ok path else .error .escape

/-- Whether a component is a plain name. -/
def isNormalC : Component → Bool
  | normal _ => true
  | _ => false

/-- A canonical absolute path: the root directory followed by plain names. -/
def isCanonical : RPath → Bool
  | rootDir :: rest => rest.all isNormalC
  | _ => false

/-- A disk oracle whose answers are canonical absolute paths, as real
`canonicalize` results are. -/
def OracleCanonicalizes (canon : RPath → Option RPath) : Prop :=
  ∀ q r, canon q = some r → isCanonical r = true

/-- The `noEscapeFrom d p`: scanning the relative path `p` left to right, starting
`d` name components below the fixture root, never meets a dot-dot at depth
zero (so the walk never resolves above the root), and never meets an absolute
component. -/
def noEscapeFrom : Nat → RPath → Bool
  | _, [] => true
  | d, curDir :: r => noEscapeFrom d r
  | d, normal _ :: r => noEscapeFrom (d + 1) r
  | d, parentDir :: r =>
    match d with
    | 0 => false
    | d' + 1 => noEscapeFrom d' r
  | _, rootDir :: _ => false

/-- A relative path whose dot-dot components never resolve above the root it is
joined to. -/
def noEscape (p : RPath) : Bool := noEscapeFrom 0 p

/-! ### The filesystem model for the fixture operations -/

/-- A directory entry: a directory or a file with its byte content. -/
inductive Entry where
  | dir
  | file (content : List Nat)
deriving DecidableEq

/-- A filesystem: a finite association of absolute paths to entries (newest
entry first). -/
abbrev FS := List (RPath × Entry)

def fsLookup : FS → RPath → Option Entry
  | [], _ => none
  | (q, e) :: rest, p => if q = p then some e else fsLookup rest p

def fsExists (fs : FS) (p : RPath) : Bool := (fsLookup fs p).isSome

/-- The disk oracle induced by a symlink-free filesystem: an existing path
canonicalizes to itself, a missing path fails to canonicalize. -/
def canonOf (fs : FS) : RPath → Option RPath :=
  fun p => if fsExists fs p then some p else none

def isDirAt (fs : FS) (p : RPath) : Bool :=
  match fsLookup fs p with
  | some .dir => true
  | _ => false

def notFile (fs : FS) (p : RPath) : Bool :=
  match fsLookup fs p with
  | some (.file _) => false
  | _ => true

/-- The `TestDir::sub_path_available`: confine, then require that the target does
not exist (panic mapped to `alreadyExists`, spec section 7). -/
def sub_path_availableE (fs : FS) (root rel : RPath) : Except TdError RPath :=
  match sub_pathE (canonOf fs) root rel with
  | .error e => .error e
  | .ok p => if fsExists fs p then .error .alreadyExists else .ok p

/-- std `fs::create_dir_all`: walk the path from its first component, keeping
existing directories, creating missing ones, failing when a component already
exists as a file. -/
def cdaGo (fs : FS) (done todo : RPath) : Except TdError FS :=
  match todo with
  | [] => .ok fs
  | c :: rest =>
    match fsLookup fs (done ++ [c]) with
    | some .dir => cdaGo fs (done ++ [c]) rest
    | some (.file _) => .error .ioError
    | none => cdaGo ((done ++ [c], Entry.dir) :: fs) (done ++ [c]) rest

def create_dir_all (fs : FS) (p : RPath) : Except TdError FS := cdaGo fs [] p

/-- std `fs::write`: create the file with the given content; fails when the
target is a directory or its parent directory is missing. -/
def fsWrite (fs : FS) (p : RPath) (content : List Nat) : Except TdError FS :=
  match fsLookup fs p with
  | some .dir => .error .ioError
  | some (.file _) => .ok ((p, Entry.file content) :: fs)
  | none =>
    match pathParent p with
    | some parent => if isDirAt fs parent then .ok ((p, Entry.file content) :: fs) else .error .ioError
    | none => .error .ioError

/-- The `Fixtures::create_file` from src/testdir.rs: confine and require the target
absent, create the parent directories recursively, then write the content. -/
def create_file (fs : FS) (root rel : RPath) (content : List Nat) : Except TdError FS :=
  match sub_path_availableE fs root rel with
  | .error e => .error e
  | .ok path =>
    match pathParent path with
    | some parent =>
      match create_dir_all fs parent with
      | .error e => .error e
      | .ok fs1 => fsWrite fs1 path content
    | none => fsWrite fs path content

/-- The `DirAssertions::assert_exists`: confine, then require that the target
exists (panic mapped to `notFound`, spec section 7). -/
def assert_existsE (fs : FS) (root rel : RPath) : Except TdError Unit :=
  match sub_pathE (canonOf fs) root rel with
  | .error e => .error e
  | .ok p => if fsExists fs p then .ok () else .error .notFound

/-- The `DirAssertions::assert_available`: confine, then require that the target
does not exist. -/
def assert_availableE (fs : FS) (root rel : RPath) : Except TdError Unit :=
  match sub_pathE (canonOf fs) root rel with
  | .error e => .error e
  | .ok p => if fsExists fs p then .error .alreadyExists else .ok ()

/-! ### The `delete` dispatch over the TestDir implementations -/

/-- The four `TestDir`/`Fixtures` implementations in src/testdir.rs: plain
`Path`, `PathBuf`, the disposable `TempDir` and `TempDirCleanup`. -/
inductive RootKind where
  | plainPath
  | plainPathBuf
  | tempDir
  | tempDirCleanup
deriving DecidableEq

/-- Which implementations override the default `Fixtures::delete` body.  In the
source none do: `impl Fixtures for TempDir` and `for TempDirCleanup` contain
only a `//TODO: implement rm` comment, and the `Path`/`PathBuf` impls are
empty. -/
def deleteOverride : RootKind → Option (FS → RPath → RPath → Except TdError FS)
  | .plainPath => none
  | .plainPathBuf => none
  | .tempDir => none
  | .tempDirCleanup => none

/-- The `Fixtures::delete`: dispatch to an implementation override when present;
the default trait body is the fatal `unimplemented!()` panic (deemed
dangerous). -/
def deleteCall (k : RootKind) (fs : FS) (root rel : RPath) : Except TdError FS :=
  match deleteOverride k with
  | some f => f fs root rel
  | none => .error .fatal

/-! ### Process output and its assertions -/

/-- Model of `String::from_utf8_lossy` on the inputs of this development: a byte
below 0x80 decodes as the corresponding ASCII character, any other byte as the
replacement character.  Every buffer examined by the claims is plain ASCII, on
which this agrees with the real decoder. -/
def utf8Lossy (bs : List Nat) : String :=
  String.mk (bs.map fun b => if b < 128 then Char.ofNat b else Char.ofNat 0xFFFD)

/-- The bytes of an ASCII string. -/
def asciiBytes (s : String) : List Nat := s.toList.map Char.toNat

/-- The `std::process::ExitStatus`: `code` is `none` when the process was terminated
by a signal. -/
structure ExitStatusM where
  code : Option Int
deriving DecidableEq

/-- The `std::process::Output`: exit status plus the captured stream bytes. -/
structure OutputM where
  status : ExitStatusM
  stdout : List Nat
  stderr : List Nat
deriving DecidableEq

/-- The `TestOutput::assert_exitcode`: `assert_eq!(self.status.code(), Some(code))`,
failing with the `unexpected exitcode` message otherwise. -/
def assert_exitcode (o : OutputM) (code : Int) : Except String Unit :=
  if o.status.code = some code then .ok () else .error "unexpected exitcode"

/-- The pattern-engine interface the assertion wrappers delegate to:
`regex::Regex::is_match` over decoded text and `regex::bytes::Regex::is_match`
over raw bytes. -/
structure Matcher where
  utf8M : String → String → Bool
  bytesM : String → List Nat → Bool

/-- The diagnostic a failing output assertion panics with: the label before the
pattern, the pattern, the label before the shown text, and the text shown. -/
structure FailDiag where
  label1 : String
  pattern : String
  label2 : String
  shown : String
deriving DecidableEq

/-- The `assert_stdout_utf8` from src/output.rs: on failure the message holds the
pattern and the lossily decoded stdout. -/
def assert_stdout_utf8 (m : Matcher) (o : OutputM) (re : String) : Except FailDiag Unit :=
  if m.utf8M re (utf8Lossy o.stdout) then .ok ()
  else .error ⟨"stdout does not match", re, "stdout was", utf8Lossy o.stdout⟩

/-- The `assert_stderr_utf8` from src/output.rs: the shown text is the decoded
stderr (the second label in the source erroneously still says `stdout was`). -/
def assert_stderr_utf8 (m : Matcher) (o : OutputM) (re : String) : Except FailDiag Unit :=
  if m.utf8M re (utf8Lossy o.stderr) then .ok ()
  else .error ⟨"stderr does not match", re, "stdout was", utf8Lossy o.stderr⟩

/-- The `assert_stdout_bytes` from src/output.rs, lines 91-101: the match runs over
`self.stdout`, but the failure message interpolates
`String::from_utf8_lossy(&self.stderr)` — the shown text is stderr's. -/
def assert_stdout_bytes (m : Matcher) (o : OutputM) (re : String) : Except FailDiag Unit :=
  if m.bytesM re o.stdout then .ok ()
  else .error ⟨"stdout does not match", re, "stdout was", utf8Lossy o.stderr⟩

/-- The `assert_stderr_bytes` from src/output.rs: matches stderr and shows stderr
(both labels in the source erroneously say stdout). -/
def assert_stderr_bytes (m : Matcher) (o : OutputM) (re : String) : Except FailDiag Unit :=
  if m.bytesM re o.stderr then .ok ()
  else .error ⟨"stdout does not match", re, "stdout was", utf8Lossy o.stderr⟩

/-! ### Environment handling of the process invoker -/

/-- The environment state of a `std::process::Command`: whether `env_clear` was
called, and the explicitly applied pairs in application order. -/
structure CommandEnvState where
  clearFlag : Bool
  vars : List (String × String)

/-- Apply explicitly set variables over a base environment; a later pair for the
same key overrides an earlier one, as `Command::envs` insertion does. -/
def applyVars (base : String → Option String) (vars : List (String × String)) :
    String → Option String :=
  vars.foldl (fun acc kv => fun s => if s = kv.1 then some kv.2 else acc s) base

/-- The environment the child process receives: the explicit vars over either an
empty base (after `env_clear`) or the parent process environment. -/
def effectiveEnv (parent : String → Option String) (st : CommandEnvState) :
    String → Option String :=
  applyVars (if st.clearFlag then fun _ => none else parent) st.vars

/-- The env handling shared by `call_args_envs` and `spawn_args_envs`
(src/testcall.rs lines 67-71 and 147-151): peek the envs iterator; when it
yields at least one pair call `env_clear` and apply all pairs, otherwise leave
the command environment untouched. -/
def commandEnvSetup (envs : List (String × String)) : CommandEnvState :=
  if envs.isEmpty then ⟨false, []⟩ else ⟨true, envs⟩

/-! ### Capture extraction -/

/-- The `CaptureKey` from src/regex.rs: a sub-match identified by ordinal or by
name. -/
inductive CaptureKey where
  | Index (n : Nat)
  | Name (s : String)
deriving DecidableEq

/-- The capture mapping: keys to half-open byte ranges into the owned text. -/
abbrev CapMap := List (CaptureKey × (Nat × Nat))

def capLookup : CapMap → CaptureKey → Option (Nat × Nat)
  | [], _ => none
  | (k, r) :: rest, key => if k = key then some r else capLookup rest key

/-- The `HashMap::insert`: any existing binding for the key is replaced. -/
def capInsert : CapMap → CaptureKey → (Nat × Nat) → CapMap
  | [], k, r => [(k, r)]
  | (k', r') :: rest, k, r =>
    if k' = k then capInsert rest k r else (k', r') :: capInsert rest k r

/-- What the engine reports for one successful pattern application: `c.get(n)`
for each group ordinal `n` in `0..c.len()`, as ranges into the text. -/
structure EngineCaps where
  groups : List (Option (Nat × Nat))
deriving DecidableEq

/-- A compiled pattern as the capture-extraction code consumes it:
`re.captures(text)`, `re.capture_names()` in group-definition order (`none` for
the unnamed slots), and the name-to-ordinal table the engine keeps. -/
structure RegexModel where
  capsOf : String → Option EngineCaps
  namesList : List (Option String)
  nameIdx : String → Option Nat

/-- The `Captures::name(s)`: resolve the name to its group ordinal, then report that
group. -/
def cName (rm : RegexModel) (c : EngineCaps) (s : String) : Option (Nat × Nat) :=
  match rm.nameIdx s with
  | some i => c.groups.getD i none
  | none => none

/-- First loop of `captures_utf8`: `for n in 0..c.len()`, insert `Index(n)` for
every group the engine reports as matched. -/
def phase1 (gs : List (Option (Nat × Nat))) (i : Nat) (m : CapMap) : CapMap :=
  match gs with
  | [] => m
  | some r :: rest => phase1 rest (i + 1) (capInsert m (.Index i) r)
  | none :: rest => phase1 rest (i + 1) m

/-- Second loop of `captures_utf8`: for every entry of `capture_names()`, insert
`Name(n)` when the entry is a name and `c.name(n)` reports a match (an unnamed
slot fails the `Some(n)` pattern and inserts nothing). -/
def phase2 (rm : RegexModel) (c : EngineCaps) (ns : List (Option String)) (m : CapMap) : CapMap :=
  match ns with
  | [] => m
  | some nm :: rest =>
    match cName rm c nm with
    | some r => phase2 rm c rest (capInsert m (.Name nm) r)
    | none => phase2 rm c rest m
  | none :: rest => phase2 rm c rest m

/-- The `Captured` from src/regex.rs: the decoded text and the capture mapping. -/
structure Captured where
  text : String
  captures : CapMap
deriving DecidableEq

/-- The `captures_utf8` from src/regex.rs: lossily decode the input, run the
pattern, and when it matched build the mapping with the two insertion loops;
when it did not match, the mapping stays empty (no error). -/
def captures_utf8 (rm : RegexModel) (input : List Nat) : Captured :=
  let text := utf8Lossy input
  match rm.capsOf text with
  | none => ⟨text, []⟩
  | some c => ⟨text, phase2 rm c rm.namesList (phase1 c.groups 0 [])⟩

/-- Indexing failure taxonomy of `Captured` (spec section 7). -/
inductive CapError where
  | keyNotFound
deriving DecidableEq

/-- Slice the owned text at a half-open range. -/
def sliceStr (s : String) (r : Nat × Nat) : String :=
  String.mk ((s.toList.drop r.1).take (r.2 - r.1))

/-- The `Index` impls on `Captured`: look the key up in the mapping and slice
the owned text; indexing an absent key is the `KeyNotFound` failure. -/
def Captured.getKey (c : Captured) (k : CaptureKey) : Except CapError String :=
  match capLookup c.captures k with
  | some r => .ok (sliceStr c.text r)
  | none => .error .keyNotFound

/-- Length of the leading run of non-space characters. -/
def nonSpaceRun : List Char → Nat
  | [] => 0
  | c :: rest => if c = ' ' then 0 else nonSpaceRun rest + 1

/-- Modelled from the spec: the external pattern engine (the regex crate, not
part of this repository) applied at one start position of the pattern
`(?P<first>[^ ]*) (?P<second>[^ ]*)`: the first group greedily takes the
maximal run of non-space characters, a literal space must follow, the second
group greedily takes the next maximal non-space run. -/
def twoWordsAt (cs : List Char) (i : Nat) :
    Option ((Nat × Nat) × (Nat × Nat) × (Nat × Nat)) :=
  let r1 := nonSpaceRun cs
  match cs.drop r1 with
  | ' ' :: rest2 =>
    let r2 := nonSpaceRun rest2
    some ((i, i + r1 + 1 + r2), (i, i + r1), (i + r1 + 1, i + r1 + 1 + r2))
  | _ => none

/-- Modelled from the spec: the engine's leftmost-match search for the same
pattern — try each start position left to right. -/
def twoWordsSearch (cs : List Char) (i : Nat) :
    Option ((Nat × Nat) × (Nat × Nat) × (Nat × Nat)) :=
  match twoWordsAt cs i with
  | some r => some r
  | none =>
    match cs with
    | [] => none
    | _ :: rest => twoWordsSearch rest (i + 1)

/-- Modelled from the spec: the compiled pattern
`(?P<first>[^ ]*) (?P<second>[^ ]*)` as a `RegexModel`: group 0 is the whole
match, groups 1 and 2 carry the names `first` and `second`. -/
def helloRegex : RegexModel where
  capsOf := fun text =>
    (twoWordsSearch text.toList 0).map fun t => ⟨[some t.1, some t.2.1, some t.2.2]⟩
  namesList := [none, some "first", some "second"]
  nameIdx := fun s =>
    if s = "first" then some 1 else if s = "second" then some 2 else none

/-! ### The specification's own normalization (for the refinement claim C2) -/

/-- The spec's normalization state (spec section 4.1 steps 3-4): whether the
accumulated path is absolute, and the accumulated plain components. -/
structure NormState where
  isAbs : Bool
  comps : List String
deriving DecidableEq

/-- Render a spec state as a component path. -/
def stateToPath (st : NormState) : RPath :=
  (if st.isAbs then [rootDir] else []) ++ st.comps.map normal

/-- Parse a (canonical) component path back into a spec state. -/
def pathToState (p : RPath) : NormState :=
  match p with
  | rootDir :: rest => ⟨true, rest.filterMap fun c => match c with | normal s => some s | _ => none⟩
  | _ => ⟨false, p.filterMap fun c => match c with | normal s => some s | _ => none⟩

/-- The lexical step in the spec's words: drop a dot; push a name; for a
dot-dot pop the last accumulated component when one exists, else simply drop
the dot-dot rather than propagate it above the accumulated path; a root
component restarts at the absolute root. -/
def specLex (st : NormState) (c : Component) : NormState :=
  match c with
  | curDir => st
  | normal s => ⟨st.isAbs, st.comps ++ [s]⟩
  | parentDir =>
    match st.comps with
    | [] => st
    | _ => ⟨st.isAbs, st.comps.dropLast⟩
  | rootDir => ⟨true, []⟩

/-- One spec step: the lexical step, then — if the accumulated path exists on
disk — resolution through the real filesystem, else the lexical form is kept. -/
def specStep (canon : RPath → Option RPath) (st : NormState) (c : Component) : NormState :=
  match canon (stateToPath (specLex st c)) with
  | some r => pathToState r
  | none => specLex st c

/-- The spec's normalization (spec section 4.1 steps 3-4) as a whole. -/
def normalizeSpec (canon : RPath → Option RPath) (p : RPath) : NormState :=
  p.foldl (specStep canon) ⟨false, []⟩

/-- All prefixes of a list (including the empty and the full one). -/
def prefListsOf : RPath → List RPath
  | [] => [[]]
  | c :: r => [] :: (prefListsOf r).map (fun t => c :: t)

/-- A matcher that never matches, for exercising the failure branches of the
output assertions. -/
def falseMatcher : Matcher := ⟨fun _ _ => false, fun _ _ => false⟩

/-! ## Lemmas about normalization -/

theorem normStep_id (canon : RPath → Option RPath) (h : OracleId canon)
    (acc : RPath) (c : Component) : normStep canon acc c = lexPush acc c := by
  unfold normStep
  cases hc : canon (lexPush acc c) with
  | none => rfl
  | some r => exact h _ _ hc

theorem normalize_id (canon : RPath → Option RPath) (h : OracleId canon)
    (p : RPath) : normalize canon p = p.foldl lexPush [] := by
  unfold normalize
  suffices hs : ∀ acc, p.foldl (normStep canon) acc = p.foldl lexPush acc from hs []
  induction p with
  | nil => intro acc; rfl
  | cons c rest ih =>
    intro acc
    simp only [List.foldl_cons, normStep_id canon h]
    exact ih _

theorem pathParent_concat_normal (l : RPath) (s : String) :
    pathParent (l ++ [normal s]) = some l := by
  cases l with
  | nil => simp [pathParent]
  | cons a rest =>
    have h2 : (a :: rest) ++ [normal s] ≠ [rootDir] := by
      intro he
      have hl := congrArg List.length he
      simp at hl
    simp only [pathParent, h2, List.cons_append, or_self, ite_false, List.append_eq_nil,
      List.cons_ne_nil, false_and, false_or, if_neg h2]
    rw [show a :: (rest ++ [normal s]) = (a :: rest) ++ [normal s] from rfl,
      List.dropLast_concat]
    rw [if_neg h2]

theorem hasParent_concat_normal (l : RPath) (s : String) :
    hasParent (l ++ [normal s]) = true := by
  rw [hasParent, pathParent_concat_normal]
  rfl

theorem lexPush_normal (acc : RPath) (s : String) :
    lexPush acc (normal s) = acc ++ [normal s] := rfl

theorem lexPush_parentDir_concat (acc : RPath) (s : String) :
    lexPush (acc ++ [normal s]) parentDir = acc := by
  show (if hasParent (acc ++ [normal s]) then (acc ++ [normal s]).dropLast
    else acc ++ [normal s]) = acc
  rw [hasParent_concat_normal, if_pos rfl, List.dropLast_concat]

theorem foldl_lexPush_normals (ns : List String) :
    ∀ acc : RPath, (ns.map normal).foldl lexPush acc = acc ++ ns.map normal := by
  induction ns with
  | nil => intro acc; simp
  | cons s rest ih =>
    intro acc
    simp only [List.map_cons, List.foldl_cons, lexPush_normal]
    rw [ih]
    simp

theorem all_normal_shape (l : RPath) (h : l.all isNormalC = true) :
    ∃ ns : List String, l = ns.map normal := by
  induction l with
  | nil => exact ⟨[], rfl⟩
  | cons c rest ih =>
    simp only [List.all_cons, Bool.and_eq_true] at h
    obtain ⟨hc, hrest⟩ := h
    obtain ⟨ns, hns⟩ := ih hrest
    cases c with
    | normal s => exact ⟨s :: ns, by simp [hns]⟩
    | rootDir => simp [isNormalC] at hc
    | curDir => simp [isNormalC] at hc
    | parentDir => simp [isNormalC] at hc

theorem isCanonical_shape (root : RPath) (h : isCanonical root = true) :
    ∃ ns : List String, root = rootDir :: ns.map normal := by
  cases root with
  | nil => simp [isCanonical] at h
  | cons c rest =>
    cases c with
    | rootDir =>
      obtain ⟨ns, hns⟩ := all_normal_shape rest h
      exact ⟨ns, by rw [hns]⟩
    | curDir => simp [isCanonical] at h
    | parentDir => simp [isCanonical] at h
    | normal s => simp [isCanonical] at h

theorem foldl_lexPush_canonical (root : RPath) (h : isCanonical root = true) :
    root.foldl lexPush [] = root := by
  obtain ⟨ns, rfl⟩ := isCanonical_shape root h
  simp only [List.foldl_cons]
  rw [show lexPush [] rootDir = [rootDir] from rfl, foldl_lexPush_normals]
  rfl

theorem foldl_lexPush_noEscape (p : RPath) :
    ∀ (xs : List String) (root : RPath), noEscapeFrom xs.length p = true →
      ∃ ys : List String, p.foldl lexPush (root ++ xs.map normal) = root ++ ys.map normal := by
  induction p with
  | nil => intro xs root _; exact ⟨xs, rfl⟩
  | cons c rest ih =>
    intro xs root h
    cases c with
    | curDir =>
      simp only [List.foldl_cons]
      exact ih xs root h
    | normal s =>
      simp only [List.foldl_cons, lexPush_normal]
      have hacc : root ++ xs.map normal ++ [normal s] = root ++ (xs ++ [s]).map normal := by
        simp
      rw [hacc]
      refine ih (xs ++ [s]) root ?_
      have hlen : (xs ++ [s]).length = xs.length + 1 := by simp
      rw [hlen]
      exact h
    | parentDir =>
      rcases List.eq_nil_or_concat xs with rfl | ⟨xs', x, rfl⟩
      · exact absurd h (by simp [noEscapeFrom])
      · simp only [List.concat_eq_append] at h ⊢
        have hlen : (xs' ++ [x]).length = xs'.length + 1 := by simp
        rw [hlen] at h
        have h' : noEscapeFrom xs'.length rest = true := h
        have hacc : root ++ (xs' ++ [x]).map normal =
            (root ++ xs'.map normal) ++ [normal x] := by simp
        simp only [List.foldl_cons]
        rw [hacc, lexPush_parentDir_concat]
        exact ih xs' root h'
    | rootDir => exact absurd h (by simp [noEscapeFrom])

theorem isPrefixL_append_self (base rest : RPath) : isPrefixL base (base ++ rest) = true := by
  induction base with
  | nil => rfl
  | cons a t ih => simp [isPrefixL, ih]

/-! ## Lemmas about the spec's normalization machine -/

theorem filterMap_normal (ns : List String) :
    (ns.map normal).filterMap (fun c => match c with | normal s => some s | _ => none) = ns := by
  induction ns with
  | nil => rfl
  | cons s rest ih => simp [ih]

theorem stateToPath_pathToState (r : RPath) (h : isCanonical r = true) :
    stateToPath (pathToState r) = r := by
  obtain ⟨ns, rfl⟩ := isCanonical_shape r h
  show stateToPath ⟨true, (ns.map normal).filterMap fun c =>
    match c with | normal s => some s | _ => none⟩ = rootDir :: ns.map normal
  rw [filterMap_normal]
  simp [stateToPath]

theorem lexPush_spec (st : NormState) (c : Component) :
    lexPush (stateToPath st) c = stateToPath (specLex st c) := by
  obtain ⟨abs, comps⟩ := st
  cases c with
  | curDir => rfl
  | rootDir => rfl
  | normal s => simp [lexPush, specLex, stateToPath]
  | parentDir =>
    rcases List.eq_nil_or_concat comps with rfl | ⟨cs, cl, rfl⟩
    · cases abs with
      | true => rfl
      | false => rfl
    · simp only [List.concat_eq_append]
      have hpath : stateToPath ⟨abs, cs ++ [cl]⟩ =
          ((if abs then [rootDir] else []) ++ cs.map normal) ++ [normal cl] := by
        simp [stateToPath]
      have hspec : specLex ⟨abs, cs ++ [cl]⟩ parentDir = ⟨abs, cs⟩ := by
        cases cs with
        | nil => simp [specLex]
        | cons a t =>
          show NormState.mk abs ((a :: t ++ [cl]).dropLast) = ⟨abs, a :: t⟩
          rw [List.dropLast_concat]
      rw [hpath, hspec, lexPush_parentDir_concat]
      simp [stateToPath]

theorem normStep_spec (canon : RPath → Option RPath)
    (hcanon : OracleCanonicalizes canon) (st : NormState) (c : Component) :
    normStep canon (stateToPath st) c = stateToPath (specStep canon st c) := by
  unfold normStep specStep
  rw [lexPush_spec]
  cases hc : canon (stateToPath (specLex st c)) with
  | none => rfl
  | some r => exact (stateToPath_pathToState r (hcanon _ _ hc)).symm

theorem normalize_spec_foldl (canon : RPath → Option RPath)
    (hcanon : OracleCanonicalizes canon) (p : RPath) :
    ∀ st : NormState,
      p.foldl (normStep canon) (stateToPath st) = stateToPath (p.foldl (specStep canon) st) := by
  induction p with
  | nil => intro st; rfl
  | cons c rest ih =>
    intro st
    simp only [List.foldl_cons]
    rw [normStep_spec canon hcanon]
    exact ih _

/-! ## Claim theorems: path confinement -/

/-- C1 (amended): over a canonical root and a symlink-free disk, a relative path
whose dot-dot components never resolve above the root is confined successfully
and the result extends the root (as a component prefix, not necessarily a
strict one); and whenever the normalized join does not extend the root,
`sub_path` fails with `Escape`. -/
theorem c1_sub_path_confined (canon : RPath → Option RPath) (root P : RPath)
    (hcanon : OracleId canon) (hroot : isCanonical root = true) :
    (noEscape P = true →
      ∃ r, sub_pathE canon root P = .ok r ∧ isPrefixL root r = true) ∧
    (isPrefixL root (normalize canon (root ++ P)) = false →
      sub_pathE canon root P = .error .escape) := by
  constructor
  · intro hne
    obtain ⟨ys, hys⟩ := foldl_lexPush_noEscape P [] root hne
    have hnorm : normalize canon (root ++ P) = root ++ ys.map normal := by
      rw [normalize_id canon hcanon, List.foldl_append, foldl_lexPush_canonical root hroot]
      simpa using hys
    refine ⟨root ++ ys.map normal, ?_, isPrefixL_append_self ..⟩
    simp only [sub_pathE]
    rw [hnorm, isPrefixL_append_self]
    rfl
  · intro hbad
    simp only [sub_pathE]
    rw [hbad]
    simp

/-- C1 witness: the theorem applied at root `/r`, relative path `a/../b`. -/
theorem c1_witness :
    ∃ r, sub_pathE noDisk [rootDir, normal "r"] [normal "a", parentDir, normal "b"] = .ok r ∧
      isPrefixL [rootDir, normal "r"] r = true :=
  (c1_sub_path_confined noDisk [rootDir, normal "r"] [normal "a", parentDir, normal "b"]
    (fun _ _ h => nomatch h) (by decide)).1 (by decide)

/-- C1 counterexample: the empty relative path has no dot-dot component at all,
yet `sub_path` succeeds returning the root itself, which does not have the root
as a strict prefix — refuting the claim's strict-prefix guarantee. -/
theorem c1_counterexample :
    noEscape ([] : RPath) = true ∧
    sub_pathE noDisk [rootDir, normal "r"] [] = .ok [rootDir, normal "r"] ∧
    isStrictPrefixL [rootDir, normal "r"] [rootDir, normal "r"] = false := by
  refine ⟨rfl, rfl, by decide⟩

/-- C2: `PathNormalize::normalize` refines the specification's normalization
word for word: dots are dropped, a dot-dot pops the last accumulated component
only when one exists and is otherwise simply dropped, and after every component
the accumulated path is resolved through the disk when it exists there and kept
lexical otherwise. -/
theorem c2_normalize_refines_spec (canon : RPath → Option RPath)
    (hcanon : OracleCanonicalizes canon) (p : RPath) :
    normalize canon p = stateToPath (normalizeSpec canon p) := by
  have h := normalize_spec_foldl canon hcanon p ⟨false, []⟩
  unfold normalize normalizeSpec
  exact h

/-- C2 witness: the refinement at the concrete path `/foo/./bar/..` over an
empty disk. -/
theorem c2_witness :
    normalize noDisk [rootDir, normal "foo", curDir, normal "bar", parentDir] =
      stateToPath (normalizeSpec noDisk [rootDir, normal "foo", curDir, normal "bar", parentDir]) :=
  c2_normalize_refines_spec noDisk (fun _ _ h => nomatch h) _

/-- C8: over a symlink-free disk, normalization ignores an inserted dot
component and cancels an inserted name/dot-dot pair, so confining
`foo/./bar/../bar` equals confining `foo/bar`. -/
theorem c8_normalize_roundtrip (canon : RPath → Option RPath) (hcanon : OracleId canon)
    (p q : RPath) (s : String) (root : RPath) (f b : String) :
    normalize canon (p ++ curDir :: q) = normalize canon (p ++ q) ∧
    normalize canon (p ++ normal s :: parentDir :: q) = normalize canon (p ++ q) ∧
    sub_pathE canon root [normal f, curDir, normal b, parentDir, normal b] =
      sub_pathE canon root [normal f, normal b] := by
  have law1 : ∀ p' q' : RPath,
      normalize canon (p' ++ curDir :: q') = normalize canon (p' ++ q') := by
    intro p' q'
    rw [normalize_id canon hcanon, normalize_id canon hcanon, List.foldl_append,
      List.foldl_append, List.foldl_cons]
    rfl
  have law2 : ∀ (p' q' : RPath) (s' : String),
      normalize canon (p' ++ normal s' :: parentDir :: q') = normalize canon (p' ++ q') := by
    intro p' q' s'
    rw [normalize_id canon hcanon, normalize_id canon hcanon, List.foldl_append,
      List.foldl_append, List.foldl_cons, List.foldl_cons, lexPush_normal,
      lexPush_parentDir_concat]
  have hmid : normalize canon (root ++ [normal f, curDir, normal b, parentDir, normal b]) =
      normalize canon (root ++ [normal f, normal b]) := by
    have e1 : root ++ [normal f, curDir, normal b, parentDir, normal b] =
        (root ++ [normal f]) ++ curDir :: [normal b, parentDir, normal b] := by simp
    have e2 : (root ++ [normal f]) ++ [normal b, parentDir, normal b] =
        (root ++ [normal f]) ++ normal b :: parentDir :: [normal b] := rfl
    rw [e1, law1, e2, law2]
    simp
  refine ⟨law1 p q, law2 p q s, ?_⟩
  simp only [sub_pathE]
  rw [hmid]

/-- C8 witness: the round-trip at root `/root` with names `foo` and `bar` over
an empty disk. -/
theorem c8_witness :
    sub_pathE noDisk [rootDir, normal "root"]
        [normal "foo", curDir, normal "bar", parentDir, normal "bar"] =
      sub_pathE noDisk [rootDir, normal "root"] [normal "foo", normal "bar"] :=
  (c8_normalize_roundtrip noDisk (fun _ _ h => nomatch h) [] [] "x"
    [rootDir, normal "root"] "foo" "bar").2.2

/-! ## Claim theorems: delete, environment, output assertions -/

/-- C3: the code contradicts the claim — `Fixtures::delete` falls through to
the fatal unimplemented default for every root kind, including the disposable
`TempDir` and `TempDirCleanup` roots on which the claim (and the repository's
own test `delete_in_tempdir`) expects it to remove the element. -/
theorem c3_delete_always_fatal (fs : FS) (root rel : RPath) :
    deleteCall .tempDir fs root rel = .error .fatal ∧
    deleteCall .tempDirCleanup fs root rel = .error .fatal ∧
    deleteCall .plainPath fs root rel = .error .fatal ∧
    deleteCall .plainPathBuf fs root rel = .error .fatal :=
  ⟨rfl, rfl, rfl, rfl⟩

/-- C5: when the envs argument yields at least one pair the whole child
environment is cleared before the pairs are applied (the result is independent
of the parent environment); when it is empty the parent environment is
inherited unchanged. -/
theorem c5_envs_semantics (parent parent' : String → Option String)
    (envs : List (String × String)) (s : String) :
    (envs = [] → effectiveEnv parent (commandEnvSetup envs) s = parent s) ∧
    (envs ≠ [] →
      effectiveEnv parent (commandEnvSetup envs) s = applyVars (fun _ => none) envs s ∧
      effectiveEnv parent (commandEnvSetup envs) s =
        effectiveEnv parent' (commandEnvSetup envs) s) := by
  constructor
  · rintro rfl
    rfl
  · intro hne
    cases envs with
    | nil => exact absurd rfl hne
    | cons kv rest => exact ⟨rfl, rfl⟩

/-- C5 witness: with envs `[("A", "1")]` the child environment at `HOME` equals
the cleared-then-applied environment and ignores the parent environment. -/
theorem c5_witness :
    effectiveEnv (fun v => if v = "HOME" then some "/home/u" else none)
        (commandEnvSetup [("A", "1")]) "HOME" =
      applyVars (fun _ => none) [("A", "1")] "HOME" ∧
    effectiveEnv (fun v => if v = "HOME" then some "/home/u" else none)
        (commandEnvSetup [("A", "1")]) "HOME" =
      effectiveEnv (fun _ => none) (commandEnvSetup [("A", "1")]) "HOME" :=
  (c5_envs_semantics (fun v => if v = "HOME" then some "/home/u" else none)
    (fun _ => none) [("A", "1")] "HOME").2 (by decide)

/-- C9: the code contradicts the claim for the stdout bytes assertion — on an
output whose stdout decodes to `AAA` and stderr to `BBB`, the failing
`assert_stdout_bytes` diagnostic shows `BBB`, the decoded stderr, not the
decoded stdout of the stream being checked (the utf8 variant does show the
checked stream). -/
theorem c9_stdout_bytes_shows_stderr :
    assert_stdout_bytes falseMatcher ⟨⟨some 0⟩, asciiBytes "AAA", asciiBytes "BBB"⟩ "XYZ" =
      .error ⟨"stdout does not match", "XYZ", "stdout was", "BBB"⟩ ∧
    utf8Lossy (asciiBytes "AAA") = "AAA" ∧
    assert_stdout_utf8 falseMatcher ⟨⟨some 0⟩, asciiBytes "AAA", asciiBytes "BBB"⟩ "XYZ" =
      .error ⟨"stdout does not match", "XYZ", "stdout was", "AAA"⟩ ∧
    ("BBB" : String) ≠ "AAA" := by
  refine ⟨?_, ?_, ?_, by decide⟩ <;> rfl

/-- C10: when the child terminated without an exit code (`status.code()` is
`None`, e.g. killed by a signal), `assert_exitcode` fails for every expected
code, since it compares `status.code()` against `Some(code)`. -/
theorem c10_exitcode_none_fails (o : OutputM) (c : Int) (h : o.status.code = none) :
    assert_exitcode o c = .error "unexpected exitcode" := by
  unfold assert_exitcode
  rw [h]
  simp

/-- C10 witness: a signal-terminated output and expected code 0. -/
theorem c10_witness :
    assert_exitcode ⟨⟨none⟩, [], []⟩ 0 = .error "unexpected exitcode" :=
  c10_exitcode_none_fails ⟨⟨none⟩, [], []⟩ 0 rfl

/-! ## Lemmas about the capture mapping -/

theorem capLookup_capInsert (m : CapMap) (k : CaptureKey) (r : Nat × Nat) (key : CaptureKey) :
    capLookup (capInsert m k r) key = if k = key then some r else capLookup m key := by
  induction m with
  | nil => rfl
  | cons p rest ih =>
    obtain ⟨k', r'⟩ := p
    by_cases hk : k' = k
    · subst hk
      have hstep : capInsert ((k', r') :: rest) k' r = capInsert rest k' r := by
        simp [capInsert]
      rw [hstep, ih]
      by_cases hkey : k' = key
      · rw [if_pos hkey, if_pos hkey]
      · rw [if_neg hkey, if_neg hkey]
        simp [capLookup, hkey]
    · have hstep : capInsert ((k', r') :: rest) k r = (k', r') :: capInsert rest k r := by
        simp [capInsert, hk]
      rw [hstep]
      by_cases hkey : k' = key
      · subst hkey
        have hkk : k ≠ k' := fun he => hk he.symm
        simp [capLookup, if_neg hkk]
      · simp only [capLookup, if_neg hkey]
        rw [ih]

theorem phase1_name (gs : List (Option (Nat × Nat))) :
    ∀ (i : Nat) (m : CapMap) (s : String),
      capLookup (phase1 gs i m) (.Name s) = capLookup m (.Name s) := by
  induction gs with
  | nil => intro i m s; rfl
  | cons g rest ih =>
    intro i m s
    cases g with
    | none => exact ih (i + 1) m s
    | some r =>
      show capLookup (phase1 rest (i + 1) (capInsert m (.Index i) r)) (.Name s) = _
      rw [ih, capLookup_capInsert]
      simp

theorem phase1_idx_lt (gs : List (Option (Nat × Nat))) :
    ∀ (i : Nat) (m : CapMap) (j : Nat), j < i →
      capLookup (phase1 gs i m) (.Index j) = capLookup m (.Index j) := by
  induction gs with
  | nil => intro i m j _; rfl
  | cons g rest ih =>
    intro i m j hj
    cases g with
    | none => exact ih (i + 1) m j (Nat.lt_succ_of_lt hj)
    | some r =>
      show capLookup (phase1 rest (i + 1) (capInsert m (.Index i) r)) (.Index j) = _
      rw [ih (i + 1) _ j (Nat.lt_succ_of_lt hj), capLookup_capInsert]
      have hne : CaptureKey.Index i ≠ CaptureKey.Index j := by
        intro he
        injection he with hi
        omega
      rw [if_neg hne]

theorem phase1_idx_hit (gs : List (Option (Nat × Nat))) :
    ∀ (i : Nat) (m : CapMap) (j : Nat) (r : Nat × Nat), gs.get? j = some (some r) →
      capLookup (phase1 gs i m) (.Index (i + j)) = some r := by
  induction gs with
  | nil => intro i m j r h; exact absurd h (by simp)
  | cons g rest ih =>
    intro i m j r h
    cases j with
    | zero =>
      have hg : g = some r := by
        have : some g = some (some r) := h
        exact Option.some_injective _ this
      subst hg
      show capLookup (phase1 rest (i + 1) (capInsert m (.Index i) r)) (.Index (i + 0)) = some r
      rw [phase1_idx_lt rest (i + 1) _ (i + 0) (by omega), capLookup_capInsert]
      rw [if_pos (by rfl)]
    | succ j' =>
      have h' : rest.get? j' = some (some r) := h
      have hadd : i + (j' + 1) = (i + 1) + j' := by omega
      cases g with
      | none =>
        show capLookup (phase1 rest (i + 1) m) (.Index (i + (j' + 1))) = some r
        rw [hadd]
        exact ih (i + 1) m j' r h'
      | some r0 =>
        show capLookup (phase1 rest (i + 1) (capInsert m (.Index i) r0))
          (.Index (i + (j' + 1))) = some r
        rw [hadd]
        exact ih (i + 1) _ j' r h'

theorem phase1_idx_miss (gs : List (Option (Nat × Nat))) :
    ∀ (i : Nat) (m : CapMap) (j : Nat), gs.get? j = some none →
      capLookup (phase1 gs i m) (.Index (i + j)) = capLookup m (.Index (i + j)) := by
  induction gs with
  | nil => intro i m j h; exact absurd h (by simp)
  | cons g rest ih =>
    intro i m j h
    cases j with
    | zero =>
      have hg : g = none := by
        have : some g = some none := h
        exact Option.some_injective _ this
      subst hg
      show capLookup (phase1 rest (i + 1) m) (.Index (i + 0)) = capLookup m (.Index (i + 0))
      exact phase1_idx_lt rest (i + 1) m (i + 0) (by omega)
    | succ j' =>
      have h' : rest.get? j' = some none := h
      have hadd : i + (j' + 1) = (i + 1) + j' := by omega
      cases g with
      | none =>
        show capLookup (phase1 rest (i + 1) m) (.Index (i + (j' + 1))) =
          capLookup m (.Index (i + (j' + 1)))
        rw [hadd]
        exact ih (i + 1) m j' h'
      | some r0 =>
        show capLookup (phase1 rest (i + 1) (capInsert m (.Index i) r0))
          (.Index (i + (j' + 1))) = capLookup m (.Index (i + (j' + 1)))
        rw [hadd, ih (i + 1) _ j' h', capLookup_capInsert]
        have hne : CaptureKey.Index i ≠ CaptureKey.Index (i + 1 + j') := by
          intro he
          injection he with hi
          omega
        rw [if_neg hne]

theorem phase2_idx (rm : RegexModel) (c : EngineCaps) (ns : List (Option String)) :
    ∀ (m : CapMap) (n : Nat),
      capLookup (phase2 rm c ns m) (.Index n) = capLookup m (.Index n) := by
  induction ns with
  | nil => intro m n; rfl
  | cons nm rest ih =>
    intro m n
    cases nm with
    | none => exact ih m n
    | some s =>
      show capLookup (match cName rm c s with
        | some r => phase2 rm c rest (capInsert m (.Name s) r)
        | none => phase2 rm c rest m) (.Index n) = _
      cases hc : cName rm c s with
      | none => exact ih m n
      | some r =>
        rw [ih, capLookup_capInsert]
        simp

theorem phase2_name_none (rm : RegexModel) (c : EngineCaps) (ns : List (Option String)) :
    ∀ (m : CapMap) (s : String), cName rm c s = none →
      capLookup (phase2 rm c ns m) (.Name s) = capLookup m (.Name s) := by
  induction ns with
  | nil => intro m s _; rfl
  | cons nm rest ih =>
    intro m s hs
    cases nm with
    | none => exact ih m s hs
    | some nm' =>
      show capLookup (match cName rm c nm' with
        | some r => phase2 rm c rest (capInsert m (.Name nm') r)
        | none => phase2 rm c rest m) (.Name s) = _
      cases hc : cName rm c nm' with
      | none => exact ih m s hs
      | some r =>
        rw [ih _ s hs, capLookup_capInsert]
        have hne : CaptureKey.Name nm' ≠ CaptureKey.Name s := by
          intro he
          injection he with hnm
          rw [hnm] at hc
          rw [hc] at hs
          exact Option.noConfusion hs
        rw [if_neg hne]

/-! ## Claim theorems: capture extraction -/

/-- C6: applying the pattern `(?P<first>[^ ]*) (?P<second>[^ ]*)` to the bytes
`Hello World!` yields capture 0 = the whole match, capture 1 / name `first` =
`Hello`, capture 2 / name `second` = `World!`, and each name maps to the same
range as its corresponding ordinal. -/
theorem c6_hello_captures :
    (captures_utf8 helloRegex (asciiBytes "Hello World!")).getKey (.Index 0) =
      .ok "Hello World!" ∧
    (captures_utf8 helloRegex (asciiBytes "Hello World!")).getKey (.Index 1) = .ok "Hello" ∧
    (captures_utf8 helloRegex (asciiBytes "Hello World!")).getKey (.Index 2) = .ok "World!" ∧
    (captures_utf8 helloRegex (asciiBytes "Hello World!")).getKey (.Name "first") =
      .ok "Hello" ∧
    (captures_utf8 helloRegex (asciiBytes "Hello World!")).getKey (.Name "second") =
      .ok "World!" ∧
    capLookup (captures_utf8 helloRegex (asciiBytes "Hello World!")).captures (.Name "first") =
      capLookup (captures_utf8 helloRegex (asciiBytes "Hello World!")).captures (.Index 1) ∧
    capLookup (captures_utf8 helloRegex (asciiBytes "Hello World!")).captures (.Name "second") =
      capLookup (captures_utf8 helloRegex (asciiBytes "Hello World!")).captures (.Index 2) :=
  ⟨rfl, rfl, rfl, rfl, rfl, rfl, rfl⟩

/-- C7: for every input and compiled pattern, extraction never fails: no match
yields the empty mapping; on a match every group the engine reports as matched
appears under its ordinal, an unmatched optional group is absent both under its
ordinal and (when its name resolves to no match) under its name, and indexing
an absent key fails with KeyNotFound. -/
theorem c7_captures_mapping (rm : RegexModel) (input : List Nat) :
    (rm.capsOf (utf8Lossy input) = none → (captures_utf8 rm input).captures = []) ∧
    (∀ c, rm.capsOf (utf8Lossy input) = some c →
      (∀ n r, c.groups.get? n = some (some r) →
        capLookup (captures_utf8 rm input).captures (.Index n) = some r) ∧
      (∀ n, c.groups.get? n = some none →
        capLookup (captures_utf8 rm input).captures (.Index n) = none) ∧
      (∀ s, cName rm c s = none →
        capLookup (captures_utf8 rm input).captures (.Name s) = none)) ∧
    (∀ k, capLookup (captures_utf8 rm input).captures k = none →
      (captures_utf8 rm input).getKey k = .error .keyNotFound) := by
  refine ⟨?_, ?_, ?_⟩
  · intro h
    simp only [captures_utf8, h]
  · intro c hc
    have hcap : (captures_utf8 rm input).captures =
        phase2 rm c rm.namesList (phase1 c.groups 0 []) := by
      simp only [captures_utf8, hc]
    refine ⟨?_, ?_, ?_⟩
    · intro n r hn
      rw [hcap, phase2_idx]
      have h := phase1_idx_hit c.groups 0 [] n r hn
      simpa using h
    · intro n hn
      rw [hcap, phase2_idx]
      have h := phase1_idx_miss c.groups 0 [] n hn
      simpa using h
    · intro s hs
      rw [hcap, phase2_name_none rm c rm.namesList _ s hs, phase1_name]
      rfl
  · intro k hk
    unfold Captured.getKey
    rw [hk]

/-- C7 witness: the concrete pattern on an input it does not match: the mapping
is empty and indexing it fails with KeyNotFound. -/
theorem c7_witness :
    (captures_utf8 helloRegex (asciiBytes "nospace")).captures = [] ∧
    (captures_utf8 helloRegex (asciiBytes "nospace")).getKey (.Index 0) =
      .error .keyNotFound :=
  ⟨(c7_captures_mapping helloRegex (asciiBytes "nospace")).1 rfl,
   (c7_captures_mapping helloRegex (asciiBytes "nospace")).2.2 (.Index 0) rfl⟩

/-! ## Lemmas about the filesystem model -/

theorem canonOf_oracleId (fs : FS) : OracleId (canonOf fs) := by
  intro q r h
  unfold canonOf at h
  by_cases he : fsExists fs q
  · rw [if_pos he] at h
    exact (Option.some_injective _ h).symm
  · rw [if_neg he] at h
    exact absurd h (by simp)

theorem sub_pathE_normals (fs : FS) (root rel : RPath)
    (hroot : isCanonical root = true) (hrel : rel.all isNormalC = true) :
    sub_pathE (canonOf fs) root rel = .ok (root ++ rel) := by
  obtain ⟨ns, rfl⟩ := all_normal_shape rel hrel
  have hnorm : normalize (canonOf fs) (root ++ ns.map normal) = root ++ ns.map normal := by
    rw [normalize_id _ (canonOf_oracleId fs), List.foldl_append,
      foldl_lexPush_canonical root hroot, foldl_lexPush_normals]
  simp only [sub_pathE]
  rw [hnorm, isPrefixL_append_self]
  rfl

theorem notFile_of_lookup_file (fs : FS) (p : RPath) (cont : List Nat)
    (h : fsLookup fs p = some (Entry.file cont)) : notFile fs p = false := by
  unfold notFile
  rw [h]

theorem isDirAt_of_lookup (fs : FS) (p : RPath) (h : fsLookup fs p = some Entry.dir) :
    isDirAt fs p = true := by
  unfold isDirAt
  rw [h]

theorem mem_prefListsOf (t1 t2 l : RPath) (h : l = t1 ++ t2) : t1 ∈ prefListsOf l := by
  induction t1 generalizing l with
  | nil =>
    cases l with
    | nil => simp [prefListsOf]
    | cons c r => simp [prefListsOf]
  | cons a t1' ih =>
    subst h
    simp only [List.cons_append, prefListsOf]
    refine List.mem_cons.mpr (Or.inr ?_)
    exact List.mem_map.mpr ⟨t1', ih (t1' ++ t2) rfl, rfl⟩

theorem cdaGo_spec (todo : RPath) :
    ∀ (done : RPath) (fs : FS),
      (∀ t1 t2, todo = t1 ++ t2 → notFile fs (done ++ t1) = true) →
      ∃ fs', cdaGo fs done todo = .ok fs' ∧
        (∀ x, fsLookup fs' x = fsLookup fs x ∨ fsLookup fs' x = some Entry.dir) ∧
        (∀ x, (∀ t1 t2, todo = t1 ++ t2 → t1 ≠ [] → x ≠ done ++ t1) →
          fsLookup fs' x = fsLookup fs x) ∧
        (∀ t1 t2, todo = t1 ++ t2 → t1 ≠ [] → isDirAt fs' (done ++ t1) = true) := by
  induction todo with
  | nil =>
    intro done fs _
    refine ⟨fs, rfl, fun x => Or.inl rfl, fun x _ => rfl, ?_⟩
    intro t1 t2 h h1
    cases t1 with
    | nil => exact absurd rfl h1
    | cons a b => exact absurd h (by simp)
  | cons c rest ih =>
    intro done fs hnf
    have hq : notFile fs (done ++ [c]) = true := hnf [c] rest rfl
    cases hl : fsLookup fs (done ++ [c]) with
    | some e =>
      cases e with
      | file cont =>
        rw [notFile_of_lookup_file fs _ cont hl] at hq
        exact absurd hq (by simp)
      | dir =>
        have hnf' : ∀ t1 t2, rest = t1 ++ t2 → notFile fs ((done ++ [c]) ++ t1) = true := by
          intro t1 t2 ht
          have h2 := hnf (c :: t1) t2 (by rw [ht]; rfl)
          simpa [List.append_assoc] using h2
        obtain ⟨fs', hok, hmono, hunt, hdirs⟩ := ih (done ++ [c]) fs hnf'
        have hstep : cdaGo fs done (c :: rest) = cdaGo fs (done ++ [c]) rest := by
          simp only [cdaGo, hl]
        refine ⟨fs', by rw [hstep, hok], hmono, ?_, ?_⟩
        · intro x hx
          refine hunt x ?_
          intro t1 t2 ht h1
          have h3 := hx (c :: t1) t2 (by rw [ht]; rfl) (by simp)
          simpa [List.append_assoc] using h3
        · intro t1 t2 ht h1
          cases t1 with
          | nil => exact absurd rfl h1
          | cons a t1' =>
            rw [List.cons_append] at ht
            injection ht with he1 he2
            subst he1
            cases t1' with
            | nil =>
              rcases hmono (done ++ [c]) with hmm | hmm
              · exact isDirAt_of_lookup _ _ (hmm.trans hl)
              · exact isDirAt_of_lookup _ _ hmm
            | cons b t1'' =>
              have h4 := hdirs (b :: t1'') t2 he2 (by simp)
              simpa [List.append_assoc] using h4
    | none =>
      have hcons : ∀ y, fsLookup ((done ++ [c], Entry.dir) :: fs) y =
          if done ++ [c] = y then some Entry.dir else fsLookup fs y := fun y => rfl
      have hnf0 : ∀ t1 t2, rest = t1 ++ t2 →
          notFile ((done ++ [c], Entry.dir) :: fs) ((done ++ [c]) ++ t1) = true := by
        intro t1 t2 ht
        by_cases he : done ++ [c] = (done ++ [c]) ++ t1
        · unfold notFile
          rw [hcons, if_pos he]
        · have h2 := hnf (c :: t1) t2 (by rw [ht]; rfl)
          have h3 : notFile fs ((done ++ [c]) ++ t1) = true := by
            simpa [List.append_assoc] using h2
          unfold notFile at h3 ⊢
          rw [hcons, if_neg he]
          exact h3
      obtain ⟨fs', hok, hmono, hunt, hdirs⟩ :=
        ih (done ++ [c]) ((done ++ [c], Entry.dir) :: fs) hnf0
      have hstep : cdaGo fs done (c :: rest) =
          cdaGo ((done ++ [c], Entry.dir) :: fs) (done ++ [c]) rest := by
        simp only [cdaGo, hl]
      refine ⟨fs', by rw [hstep, hok], ?_, ?_, ?_⟩
      · intro x
        rcases hmono x with hmm | hmm
        · by_cases he : done ++ [c] = x
          · right
            rw [hmm, hcons, if_pos he]
          · left
            rw [hmm, hcons, if_neg he]
        · right
          exact hmm
      · intro x hx
        have hxq : x ≠ done ++ [c] := hx [c] rest rfl (by simp)
        have hcond : ∀ t1 t2, rest = t1 ++ t2 → t1 ≠ [] → x ≠ (done ++ [c]) ++ t1 := by
          intro t1 t2 ht h1
          have h3 := hx (c :: t1) t2 (by rw [ht]; rfl) (by simp)
          simpa [List.append_assoc] using h3
        rw [hunt x hcond, hcons, if_neg (fun h => hxq h.symm)]
      · intro t1 t2 ht h1
        cases t1 with
        | nil => exact absurd rfl h1
        | cons a t1' =>
          rw [List.cons_append] at ht
          injection ht with he1 he2
          subst he1
          cases t1' with
          | nil =>
            have h6 : fsLookup ((done ++ [c], Entry.dir) :: fs) (done ++ [c]) =
                some Entry.dir := by
              rw [hcons, if_pos rfl]
            rcases hmono (done ++ [c]) with hmm | hmm
            · exact isDirAt_of_lookup _ _ (hmm.trans h6)
            · exact isDirAt_of_lookup _ _ hmm
          | cons b t1'' =>
            have h4 := hdirs (b :: t1'') t2 he2 (by simp)
            simpa [List.append_assoc] using h4

/-! ## Claim theorems: create_file round-trip -/

/-- C4 (amended): on a canonical root over a symlink-free filesystem, for a
nonempty relative path of plain names whose target is absent and none of whose
strict ancestors exists as a file, `create_file` creates the missing parent
directories and writes the file, a subsequent `assert_exists` on the same
relative path succeeds, and a second `create_file` on it fails with
`AlreadyExists`. -/
theorem c4_create_file_roundtrip (fs : FS) (root rel : RPath) (content : List Nat)
    (hroot : isCanonical root = true) (hrel : rel.all isNormalC = true) (hne : rel ≠ [])
    (habsent : fsExists fs (root ++ rel) = false)
    (hanc : ((prefListsOf (root ++ rel).dropLast).all fun q => notFile fs q) = true) :
    ∃ fs2, create_file fs root rel content = .ok fs2 ∧
      assert_existsE fs2 root rel = .ok () ∧
      ∀ c', create_file fs2 root rel c' = .error .alreadyExists := by
  obtain ⟨ns, rfl⟩ := all_normal_shape rel hrel
  have hns : ns ≠ [] := by
    intro h
    subst h
    exact hne rfl
  rcases List.eq_nil_or_concat ns with h0 | ⟨ns0, x, hx⟩
  · exact absurd h0 hns
  rw [List.concat_eq_append] at hx
  subst hx
  simp only [List.map_append, List.map_cons, List.map_nil] at hrel hne habsent hanc ⊢
  have htarg : root ++ (List.map normal ns0 ++ [normal x]) =
      (root ++ List.map normal ns0) ++ [normal x] := (List.append_assoc ..).symm
  have hdrop : (root ++ (List.map normal ns0 ++ [normal x])).dropLast =
      root ++ List.map normal ns0 := by
    rw [htarg, List.dropLast_concat]
  have hpp : pathParent (root ++ (List.map normal ns0 ++ [normal x])) =
      some (root ++ List.map normal ns0) := by
    rw [htarg, pathParent_concat_normal]
  have hanc' : ∀ t1 t2, root ++ List.map normal ns0 = t1 ++ t2 →
      notFile fs ([] ++ t1) = true := by
    intro t1 t2 ht
    have hm := mem_prefListsOf t1 t2 (root ++ List.map normal ns0) ht
    rw [← hdrop] at hm
    have h5 := List.all_eq_true.mp hanc t1 hm
    simpa using h5
  obtain ⟨fs1, hok1, hmono1, hunt1, hdirs1⟩ :=
    cdaGo_spec (root ++ List.map normal ns0) [] fs hanc'
  have htlen : ∀ t1 t2, root ++ List.map normal ns0 = t1 ++ t2 → t1 ≠ [] →
      root ++ (List.map normal ns0 ++ [normal x]) ≠ [] ++ t1 := by
    intro t1 t2 ht h1 he
    have hlen1 := congrArg List.length he
    have hlen2 := congrArg List.length ht
    simp at hlen1 hlen2
    omega
  have hlook1 : fsLookup fs1 (root ++ (List.map normal ns0 ++ [normal x])) =
      fsLookup fs (root ++ (List.map normal ns0 ++ [normal x])) := hunt1 _ htlen
  have habs0 : fsLookup fs (root ++ (List.map normal ns0 ++ [normal x])) = none := by
    unfold fsExists at habsent
    cases hc : fsLookup fs (root ++ (List.map normal ns0 ++ [normal x])) with
    | none => rfl
    | some e =>
      rw [hc] at habsent
      simp at habsent
  have hparent_ne : root ++ List.map normal ns0 ≠ [] := by
    obtain ⟨ms, hms⟩ := isCanonical_shape root hroot
    rw [hms]
    simp
  have hdir1 : isDirAt fs1 (root ++ List.map normal ns0) = true := by
    have h7 := hdirs1 (root ++ List.map normal ns0) [] (by simp) hparent_ne
    simpa using h7
  have hrel' : (List.map normal ns0 ++ [normal x]).all isNormalC = true := by
    simpa using hrel
  have hwrite : fsWrite fs1 (root ++ (List.map normal ns0 ++ [normal x])) content =
      .ok ((root ++ (List.map normal ns0 ++ [normal x]), Entry.file content) :: fs1) := by
    simp [fsWrite, hlook1, habs0, hpp, hdir1]
  have havail : sub_path_availableE fs root (List.map normal ns0 ++ [normal x]) =
      .ok (root ++ (List.map normal ns0 ++ [normal x])) := by
    simp [sub_path_availableE, sub_pathE_normals fs root _ hroot hrel', habsent]
  have hcf : create_file fs root (List.map normal ns0 ++ [normal x]) content =
      .ok ((root ++ (List.map normal ns0 ++ [normal x]), Entry.file content) :: fs1) := by
    simp only [create_file, havail, hpp, create_dir_all, hok1, hwrite]
  have hex2 : fsExists ((root ++ (List.map normal ns0 ++ [normal x]), Entry.file content) :: fs1)
      (root ++ (List.map normal ns0 ++ [normal x])) = true := by
    unfold fsExists
    rw [show fsLookup
        ((root ++ (List.map normal ns0 ++ [normal x]), Entry.file content) :: fs1)
        (root ++ (List.map normal ns0 ++ [normal x])) = some (Entry.file content) from by
      simp [fsLookup]]
    rfl
  have hassert : assert_existsE
      ((root ++ (List.map normal ns0 ++ [normal x]), Entry.file content) :: fs1)
      root (List.map normal ns0 ++ [normal x]) = .ok () := by
    simp [assert_existsE, sub_pathE_normals _ root _ hroot hrel', hex2]
  have hsecond : ∀ c', create_file
      ((root ++ (List.map normal ns0 ++ [normal x]), Entry.file content) :: fs1)
      root (List.map normal ns0 ++ [normal x]) c' = .error .alreadyExists := by
    intro c'
    have havail2 : sub_path_availableE
        ((root ++ (List.map normal ns0 ++ [normal x]), Entry.file content) :: fs1)
        root (List.map normal ns0 ++ [normal x]) = .error .alreadyExists := by
      simp [sub_path_availableE, sub_pathE_normals _ root _ hroot hrel', hex2]
    simp only [create_file, havail2]
  exact ⟨_, hcf, hassert, hsecond⟩

/-- C4 counterexample: with an existing file at `a` under root `/r`, the target
`a/b` is absent, yet `create_file` fails with `IoError` while creating the
parent directories (so the claimed success and subsequent `assert_exists` never
happen) — refuting the claim's unconditional success for every absent target. -/
theorem c4_counterexample :
    fsExists [([rootDir, normal "r"], Entry.dir),
        ([rootDir, normal "r", normal "a"], Entry.file [])]
      ([rootDir, normal "r"] ++ [normal "a", normal "b"]) = false ∧
    create_file [([rootDir, normal "r"], Entry.dir),
        ([rootDir, normal "r", normal "a"], Entry.file [])]
      [rootDir, normal "r"] [normal "a", normal "b"] [] = .error .ioError :=
  ⟨rfl, rfl⟩

/-- C4 witness: the amended theorem at the empty filesystem, root `/r`,
relative path `a/b` and one content byte. -/
theorem c4_witness :
    ∃ fs2, create_file [] [rootDir, normal "r"] [normal "a", normal "b"] [72] = .ok fs2 ∧
      assert_existsE fs2 [rootDir, normal "r"] [normal "a", normal "b"] = .ok () ∧
      ∀ c', create_file fs2 [rootDir, normal "r"] [normal "a", normal "b"] c' =
        .error .alreadyExists :=
  c4_create_file_roundtrip [] [rootDir, normal "r"] [normal "a", normal "b"] [72]
    (by decide) (by decide) (by decide) (by decide) (by decide)

end Testcall
